import Mathlib

/-!
Verification of the heart-rate-monitor repository's core against its
natural-language specification.  The definitions below are shallow
embeddings of the C++ sources:

* `decodeHRM`            — the Heart Rate Measurement frame decoder in
                           `props_changed_cb` (src/bluetooth.cpp).
* `buildLine`/`emitLine` — the output-line construction and duplicate
                           suppression in `props_changed_cb`.
* `healthCheckBradycardia` — `health_check_bradycardia`
                           (src/feat_health_bradycardia.cpp).
* `processOneRR`/`healthCheckArrhythmia` — `health_check_arrhythmia`
                           (src/feat_health_arrythmia.cpp) together with its
                           helper metrics.
* `maintain`             — `ensure_connected_and_notifying`
                           (src/bluetooth.cpp).
* `parse_log_line`       — the offline replay parser
                           (src/feat_analyze_log.cpp).

Machine integers are modelled as `Nat`/`Int` (no value in the reachable
domain overflows), `double` ratio comparisons between small integer RR
values are modelled over `ℚ` (for RR values bounded by 2500 the rational
comparison agrees with the IEEE-double comparison, the gaps being far
larger than one ulp), and the transcendental metric computations
(`sqrt`, `log`) are modelled over `ℝ`, with `NaN` results modelled as
`Option.none`.
-/



/-! ### Frame decoder (`props_changed_cb`, src/bluetooth.cpp lines 480-521) -/



/-! ## Definitions -/

/-- RR raw value (1/1024 s units) to milliseconds: `(raw*1000 + 512) / 1024`. -/
def rrConv (raw : ℕ) : ℕ := (raw * 1000 + 512) / 1024

/-- The RR extraction loop: consume little-endian byte pairs while at least
two bytes remain; a trailing odd byte is ignored. -/
def rrLoop : List ℕ → List ℕ
  | b0 :: b1 :: rest => rrConv (b0 + b1 * 256) :: rrLoop rest
  | _ => []

/-- The Heart Rate Measurement decoder: byte 0 is a flags bitfield
(bit 0 = 16-bit bpm, bit 3 = energy-expended present, bit 4 = RR present);
missing bytes silently omit the corresponding field. -/
def decodeHRM (bytes : List ℕ) : Option ℕ × List ℕ :=
  match bytes with
  | [] => (none, [])
  | flags :: rest =>
    let hr16 := flags.testBit 0
    let eePresent := flags.testBit 3
    let rrPresent := flags.testBit 4
    let (bpm, rest2) :=
      if hr16 then
        match rest with
        | b0 :: b1 :: r => (some (b0 + b1 * 256), r)
        | _ => (none, rest)
      else
        match rest with
        | b0 :: r => (some b0, r)
        | _ => (none, rest)
    let rest3 :=
      if eePresent then
        match rest2 with
        | _ :: _ :: r => r
        | _ => rest2
      else rest2
    (bpm, if rrPresent then rrLoop rest3 else [])

/-- One decimal digit as a character. -/
def digitCh (d : ℕ) : Char := Char.ofNat (48 + d)

/-- Decimal rendering of a natural number, most significant digit first,
as produced by `operator<<` on an integer. -/
def natDec (n : ℕ) : List Char :=
  match n with
  | 0 => ['0']
  | Nat.succ m => ((Nat.digits 10 (m + 1)).map digitCh).reverse

/-- The canonical output line `timestamp[,bpm][,rr1,rr2,...]`. -/
def buildLine (t : ℕ) (bpm : Option ℕ) (rr : List ℕ) : List Char :=
  natDec t ++
    (match bpm with
     | some b => ',' :: natDec b
     | none => []) ++
    rr.flatMap (fun v => ',' :: natDec v)

/-- Deduplication state: the previously emitted line and the suppression
counter (`s_last_line`, `s_suppressed`). -/
structure DedupSt where
  last : List Char
  suppressed : ℕ
deriving DecidableEq

/-- Initial deduplication state (`s_last_line` empty, counter 0). -/
def dedupInit : DedupSt := ⟨[], 0⟩

/-- Emitting one line: suppress (and count) iff the previous line is
non-empty and the new line is textually identical to it; second component
is `true` iff the line was actually emitted. -/
def emitLine (st : DedupSt) (line : List Char) : DedupSt × Bool :=
  if st.last ≠ [] ∧ line = st.last then
    ({ st with suppressed := st.suppressed + 1 }, false)
  else
    ({ last := line, suppressed := st.suppressed }, true)

/-- One notification through the pipeline: decode, build the line,
deduplicate. -/
def notifyStep (st : DedupSt) (t : ℕ) (bytes : List ℕ) : DedupSt × Bool :=
  emitLine st (buildLine t (decodeHRM bytes).1 (decodeHRM bytes).2)

structure BradySt where
  active : Bool
  start : ℤ
  lowest : ℤ
deriving DecidableEq

def bradyInit : BradySt := ⟨false, 0, 0⟩

inductive BradyEv where
  | warn (bpm : ℤ)
  | recover (durMs : ℤ) (lowest : ℤ)
deriving DecidableEq

/-- `health_check_bradycardia(bpm, ts_ms)`: hysteresis episode tracking with
an unconditional recovery notice. -/
def healthCheckBradycardia (s : BradySt) (bpm ts : ℤ) : BradySt × List BradyEv :=
  let cond := 0 < bpm ∧ bpm < 60
  if cond ∧ ¬s.active then
    ({ active := true, start := ts, lowest := bpm }, [.warn bpm])
  else if cond ∧ s.active then
    ({ s with lowest := min s.lowest bpm }, [])
  else if ¬cond ∧ s.active then
    ({ s with active := false },
     [.recover (if s.start ≤ ts then ts - s.start else 0) s.lowest])
  else
    ({ s with active := false }, [])

/-- Physiological range check: `kMinRRms ≤ rr ≤ kMaxRRms` (250..2500). -/
def rrInRange (rr : ℤ) : Bool := decide (250 ≤ rr ∧ rr ≤ 2500)

/-- The short-long-short ratio test shared by the ectopic detector and the
dash-style cleaning pass: `b/a ≤ 0.8 ∧ c/b ≥ 1.3 ∧ d/c ≤ 0.9` (ratios taken
over the rationals; for in-range integer RR values this agrees with the
IEEE-double comparison of the source). -/
def ectopicCond (a b c d : ℤ) : Bool :=
  decide ((b : ℚ) / a ≤ 4 / 5 ∧ (c : ℚ) / b ≥ 13 / 10 ∧ (d : ℚ) / c ≤ 9 / 10)

/-- Append to the raw RR ring buffer, evicting the oldest entry past
capacity 512 (`push_back` then conditional `pop_front`). -/
def pushCap (l : List ℤ) (x : ℤ) : List ℤ :=
  let l2 := l ++ [x]
  if 512 < l2.length then l2.drop 1 else l2

/-- Detector state: the raw RR history plus the three episode trackers
(possible-AF, pause/artifact, ectopic), mirroring the static locals of
`health_check_arrhythmia`. -/
structure ArrSt where
  rrRaw : List ℤ
  possibleAf : Bool
  afStart : ℤ
  pauseActive : Bool
  pauseStart : ℤ
  pauseMin : ℤ
  pauseMax : ℤ
  ectActive : Bool
  ectStart : ℤ
  ectCount : ℤ
deriving DecidableEq

def arrInit : ArrSt := ⟨[], false, 0, false, 0, 0, 0, false, 0, 0⟩

/-- The warnings/notices `health_check_arrhythmia` can emit. -/
inductive ArrEv where
  | pauseWarn (rr : ℤ)
  | pauseRecover (durMs minRR maxRR : ℤ)
  | ectopicWarn (a b c d : ℤ)
  | ectopicRecover (durMs count : ℤ)
  | afWarn
  | afRecover (durMs : ℤ)
deriving DecidableEq

def ArrEv.isAfWarn : ArrEv → Bool
  | .afWarn => true
  | _ => false

/-- The abnormal-value branch of the per-value loop (lines 143-154):
update pause-episode accumulators and warn. -/
def pauseAbnormal (ts : ℤ) (s : ArrSt) (rr : ℤ) : ArrSt × List ArrEv :=
  (if ¬ s.pauseActive then
     { s with pauseActive := true, pauseStart := ts, pauseMin := rr, pauseMax := rr }
   else
     { s with pauseMin := min s.pauseMin rr, pauseMax := max s.pauseMax rr },
   [.pauseWarn rr])

/-- Return to a normal value while a pause episode is active (lines
155-166): recovery notice when the run lasted more than 1000 ms. -/
def pauseResolve (ts : ℤ) (s : ArrSt) : ArrSt × List ArrEv :=
  if s.pauseActive then
    let dur := if s.pauseStart ≤ ts then ts - s.pauseStart else 0
    ({ s with pauseActive := false },
     if 1000 < dur then [.pauseRecover dur s.pauseMin s.pauseMax] else [])
  else (s, [])

/-- The ectopic-pattern inspection of the most recent four history values
`s_rr_raw[n-4] .. s_rr_raw[n-1]` (lines 170-198), run after the new value
was appended. -/
def ectopicStep (ts : ℤ) (s2 : ArrSt) (evs1 : List ArrEv) : ArrSt × List ArrEv :=
  if 4 ≤ s2.rrRaw.length then
    let n := s2.rrRaw.length
    let a := s2.rrRaw.getD (n - 4) 0
    let b := s2.rrRaw.getD (n - 3) 0
    let c := s2.rrRaw.getD (n - 2) 0
    let d := s2.rrRaw.getD (n - 1) 0
    if ectopicCond a b c d then
      let s3 :=
        if ¬ s2.ectActive then
          { s2 with ectActive := true, ectStart := ts, ectCount := 0 }
        else s2
      ({ s3 with ectCount := s3.ectCount + 1 }, evs1 ++ [.ectopicWarn a b c d])
    else if s2.ectActive then
      let dur := if s2.ectStart ≤ ts then ts - s2.ectStart else 0
      ({ s2 with ectActive := false },
       evs1 ++ (if 1000 < dur then [.ectopicRecover dur s2.ectCount] else []))
    else (s2, evs1)
  else (s2, evs1)

/-- Processing of a single RR value inside the per-value loop of
`health_check_arrhythmia` (lines 142-199). -/
def processOneRR (ts : ℤ) (s : ArrSt) (rr : ℤ) : ArrSt × List ArrEv :=
  if ¬ rrInRange rr then pauseAbnormal ts s rr
  else
    let pr := pauseResolve ts s
    let s2 := { pr.1 with rrRaw := pushCap pr.1.rrRaw rr }
    ectopicStep ts s2 pr.2

/-- The keep-scan of `dash_style_clean_rr` for positions `1 ≤ i`, `i+2 < n`:
`prev` is the raw value at `i-1`, the list argument starts at position `i`.
On a match both implicated samples are dropped and the scan resumes two
positions further. -/
def cleanScan (prev : ℤ) : List ℤ → List Bool
  | b :: c :: d :: rest =>
    if ectopicCond prev b c d then
      false :: false :: cleanScan c (d :: rest)
    else
      true :: cleanScan b (c :: d :: rest)
  | xs => xs.map (fun _ => true)

/-- `dash_style_clean_rr`: outlier-cleaning pass over the raw history. -/
def dashStyleCleanRR (rr : List ℤ) : List ℚ :=
  if rr.length < 5 then rr.map (fun v => (v : ℚ))
  else
    match rr with
    | [] => []
    | x :: xs =>
      ((rr.zip (true :: cleanScan x xs)).filter (fun p => p.2)).map
        (fun p => ((p.1 : ℤ) : ℚ))

/-- `rmssd_ratio`: RMSSD of successive differences over the segment mean;
`NaN` results (fewer than 2 values, non-positive mean) are `none`. -/
noncomputable def rmssdRatioOf (rr : List ℚ) : Option ℝ :=
  if rr.length < 2 then none
  else
    let sum : ℚ := (rr.zip rr.tail).foldl (fun acc p => acc + (p.2 - p.1) ^ 2) 0
    let meanrr : ℚ := rr.sum / rr.length
    if 0 < meanrr then
      some (Real.sqrt ((sum : ℝ) / (rr.length - 1)) / (meanrr : ℝ))
    else none

/-- Number of strict interior turning points of a sequence. -/
def countTP : List ℚ → ℕ
  | a :: b :: c :: rest =>
    (if (a < b ∧ c < b) ∨ (b < a ∧ b < c) then 1 else 0) + countTP (b :: c :: rest)
  | _ => 0

/-- `turning_point_ratio`: turning points over `count - 2`; `none` below 3
values. -/
def turningPointRatioOf (rr : List ℚ) : Option ℚ :=
  if rr.length < 3 then none
  else some ((countTP rr : ℚ) / ((rr.length : ℚ) - 2))

/-- Histogram bin index of `x` in 16 equal-width bins over `[lo, hi]`,
clamped into `0..15` (the `(int)(t*bins)` computation). -/
def binIdx (lo hi x : ℚ) : ℕ :=
  let t := (x - lo) / (hi - lo)
  let k := ⌊t * 16⌋
  if k < 0 then 0 else if 15 < k then 15 else k.toNat

/-- The per-bin occupancy counts of the trimmed segment. -/
def binCounts (trimmed : List ℚ) (lo hi : ℚ) : List ℕ :=
  (List.range 16).map (fun k => trimmed.countP (fun x => binIdx lo hi x = k))

/-- The entropy accumulation loop `se -= p * log(p)` over non-empty bins. -/
noncomputable def entropyAcc (total : ℕ) (counts : List ℕ) : ℝ :=
  counts.foldl
    (fun (acc : ℝ) (c : ℕ) =>
      if c = 0 then acc
      else acc - ((c : ℝ) / total) * Real.log ((c : ℝ) / total)) 0

/-- `shannon_entropy_16bins`: sort, trim 8 from each end, 16-bin histogram,
`-Σ p ln p` divided by `ln(1/16)`; `NaN` results are `none`. -/
noncomputable def shannonEntropy16 (rr : List ℚ) : Option ℝ :=
  if rr.length < 32 then none
  else
    let s := rr.mergeSort (fun a b => decide (a ≤ b))
    let trimmed := (s.drop 8).take (s.length - 16)
    let lo := trimmed.headI
    let hi := trimmed.getLastI
    if hi ≤ lo then some 0
    else
      let total := trimmed.length
      if total = 0 then none
      else some (entropyAcc total (binCounts trimmed lo hi) / Real.log (1 / 16))

/-- The possible-AF classification
`rmssd_ratio > 0.1 ∧ 0.54 < tpr < 0.77 ∧ entropy > 0.7`; an undefined
(`NaN`) metric compares false, exactly as in IEEE arithmetic. -/
def afPossibleP (seg : List ℚ) : Prop :=
  (∃ r, rmssdRatioOf seg = some r ∧ (1 : ℝ) / 10 < r) ∧
  (∃ t, turningPointRatioOf seg = some t ∧ (27 : ℚ) / 50 < t ∧ t < 77 / 100) ∧
  (∃ e, shannonEntropy16 seg = some e ∧ (7 : ℝ) / 10 < e)

noncomputable def afPossible (seg : List ℚ) : Bool :=
  @decide (afPossibleP seg) (Classical.propDecidable _)

/-- The possible-AF bookkeeping performed when the history (or the cleaned
history) is too short: emit a recovery if an episode was active and lasted
more than 1000 ms, then clear the flag. -/
def afClear (s : ArrSt) (ts : ℤ) : ArrSt × List ArrEv :=
  let evs :=
    if s.possibleAf then
      let dur := if s.afStart ≤ ts then ts - s.afStart else 0
      if 1000 < dur then [ArrEv.afRecover dur] else []
    else []
  ({ s with possibleAf := false }, evs)

/-- The possible-AF screening tail of `health_check_arrhythmia`
(lines 201-254), run after the per-value loop with the accumulated
events. -/
noncomputable def afScreen (ts : ℤ) (s1 : ArrSt) (evs : List ArrEv) :
    ArrSt × List ArrEv :=
  if s1.rrRaw.length < 128 then
    let c := afClear s1 ts
    (c.1, evs ++ c.2)
  else
    let cleaned := dashStyleCleanRR s1.rrRaw
    if cleaned.length < 128 then
      let c := afClear s1 ts
      (c.1, evs ++ c.2)
    else
      let seg := cleaned.drop (cleaned.length - 128)
      let poss := afPossible seg
      if poss ∧ ¬ s1.possibleAf then
        ({ s1 with possibleAf := true, afStart := ts }, evs ++ [.afWarn])
      else if ¬ poss ∧ s1.possibleAf then
        let dur := if s1.afStart ≤ ts then ts - s1.afStart else 0
        ({ s1 with possibleAf := false },
         evs ++ (if 1000 < dur then [.afRecover dur] else []))
      else
        ({ s1 with possibleAf := poss }, evs)

/-- `health_check_arrhythmia(rr_ms, ts_ms)`: the per-value loop followed by
the possible-AF screening over the cleaned 128-value window. -/
noncomputable def healthCheckArrhythmia (s : ArrSt) (rrs : List ℤ) (ts : ℤ) :
    ArrSt × List ArrEv :=
  let folded := rrs.foldl
    (fun (p : ArrSt × List ArrEv) rr =>
      let q := processOneRR ts p.1 rr
      (q.1, p.2 ++ q.2)) (s, [])
  afScreen ts folded.1 folded.2

inductive BtAct where
  | startDiscovery
  | stopDiscovery
  | connect
  | startNotify
  | subscribe
  | unsubscribe
deriving DecidableEq

/-- Error classification of a failed `Connect` call, by D-Bus error name. -/
inductive ConnErr where
  | inProgress   -- org.bluez.Error.InProgress
  | busTimeout   -- org.freedesktop.DBus.Error.Timeout
  | genFailed    -- org.bluez.Error.Failed
  | other
deriving DecidableEq

structure BtEnv where
  devHasIface : Bool          -- path_has_interface(dev_path, Device1)
  reacquired : Option String  -- result of reacquire_device
  connected : Bool            -- get_device_connected at branch entry
  connectRes : Option ConnErr -- none = Connect() succeeded
  connectedAfterWait : Bool   -- outcome of the 20 s connected poll
  chHasIface : Bool           -- path_has_interface(ch_path, GattChar1)
  foundChar : Option String   -- find_char_by_uuid
  notifying : Option Bool     -- get_char_notifying
deriving DecidableEq

/-- Session state: the by-reference parameters plus the static locals of
`ensure_connected_and_notifying`. -/
structure Session where
  devPath : String
  chPath : String
  slotActive : Bool
  nextReacquire : ℤ
  nextConnect : ℤ
  failures : ℕ
deriving DecidableEq

/-- Result of one stage of the maintenance routine: updated state, mutating
actions performed, and whether the routine continues past the stage. -/
structure StageRes where
  s : Session
  acts : List BtAct
  cont : Bool
deriving DecidableEq

/-- Device (re)acquisition stage (lines 347-361). -/
def acquireStage (s : Session) (env : BtEnv) (now : ℤ) : StageRes :=
  if s.devPath = "" ∨ env.devHasIface = false then
    if now < s.nextReacquire then ⟨s, [], false⟩
    else
      match env.reacquired with
      | some p =>
        ⟨{ s with devPath := p, nextReacquire := now, failures := 0 },
         [.startDiscovery, .stopDiscovery], true⟩
      | none =>
        ⟨{ s with nextReacquire := now + 10 },
         [.startDiscovery, .stopDiscovery], false⟩
  else ⟨s, [], true⟩

/-- Connection stage (lines 363-397), including the backoff policy. -/
def connectStage (s : Session) (env : BtEnv) (now : ℤ) : StageRes :=
  if env.connected then ⟨s, [], true⟩
  else if now < s.nextConnect then ⟨s, [], false⟩
  else
    match env.connectRes with
    | some e =>
      if e = .inProgress then
        ⟨{ s with nextConnect := now + 3 }, [.connect], false⟩
      else
        let f := s.failures + 1
        let b0 : ℕ := min 30 (2 ^ min f 5)
        let b : ℕ := if e = .busTimeout ∨ e = .genFailed then max b0 5 else b0
        ⟨{ s with failures := f, nextConnect := now + (b : ℤ) }, [.connect], false⟩
    | none =>
      if env.connectedAfterWait then
        ⟨{ s with failures := 0, nextConnect := now }, [.connect], true⟩
      else
        ⟨{ s with failures := s.failures + 1, nextConnect := now + 5 },
         [.connect], false⟩

/-- Characteristic (re)discovery and match (re)installation stage
(lines 399-416). -/
def charStage (s : Session) (env : BtEnv) : StageRes :=
  if s.chPath = "" ∨ env.chHasIface = false then
    match env.foundChar with
    | none => ⟨s, [], false⟩
    | some np =>
      if np ≠ s.chPath then
        ⟨{ s with chPath := np, slotActive := true },
         (if s.slotActive then [.unsubscribe] else []) ++ [.subscribe], true⟩
      else ⟨s, [], true⟩
  else ⟨s, [], true⟩

/-- StartNotify stage (lines 418-431). -/
def notifyStage (s : Session) (env : BtEnv) : List BtAct :=
  if s.chPath ≠ "" then
    match env.notifying with
    | some true => []
    | _ => [.startNotify]
  else []

/-- One maintenance tick: `ensure_connected_and_notifying`. -/
def maintain (s : Session) (env : BtEnv) (now : ℤ) : Session × List BtAct :=
  let r1 := acquireStage s env now
  if r1.cont = false then (r1.s, r1.acts)
  else
    let r2 := connectStage r1.s env now
    if r2.cont = false then (r2.s, r1.acts ++ r2.acts)
    else
      let r3 := charStage r2.s env
      if r3.cont = false then (r3.s, r1.acts ++ r2.acts ++ r3.acts)
      else
        (r3.s, r1.acts ++ r2.acts ++ r3.acts ++ notifyStage r3.s env)

/-- `isdigit` in the C locale. -/
def isDigitCh (c : Char) : Bool := decide ('0' ≤ c ∧ c ≤ '9')

def digitVal (c : Char) : ℕ := c.toNat - 48

/-- The field loop of `parse_log_line`, one character at a time.  The
second argument is `none` when the scanner sits at the start of a field
(right after the line start or a separating comma, where a digit is
mandatory) and `some v` while inside a digit run whose accumulated value is
`v` (`v = v*10 + digit`).  Reaching the end of the line while expecting a
field start corresponds to the C++ loop exiting after a trailing comma. -/
def parseScan : List Char → Option ℕ → List ℕ → Option (List ℕ)
  | [], none, acc => some acc
  | [], some v, acc => some (acc ++ [v])
  | c :: cs, none, acc =>
    if isDigitCh c then parseScan cs (some (digitVal c)) acc else none
  | c :: cs, some v, acc =>
    if isDigitCh c then parseScan cs (some (v * 10 + digitVal c)) acc
    else if c = ',' then parseScan cs none (acc ++ [v])
    else none

/-- `parse_log_line`: empty lines are rejected, otherwise the field loop
runs and the result is accepted only with at least two fields. -/
def parse_log_line (l : List Char) : Option (List ℕ) :=
  if l = [] then none
  else
    match parseScan l none [] with
    | some fs => if 2 ≤ fs.length then some fs else none
    | none => none

/-- The last (at most) 512 entries of a list. -/
def tail512 (l : List ℤ) : List ℤ := l.drop (l.length - 512)

/-- Running the analyzer from its initial state through a list of calls
(`(rr list, timestamp)` pairs) and keeping the final state. -/
noncomputable def runArrCalls (calls : List (List ℤ × ℤ)) : ArrSt :=
  calls.foldl (fun s c => (healthCheckArrhythmia s c.1 c.2).1) arrInit

def ArrEv.isEctWarn : ArrEv → Bool
  | .ectopicWarn _ _ _ _ => true
  | _ => false

/-- Whether an event list contains an ectopic-pattern warning. -/
def hasEctWarn (evs : List ArrEv) : Bool := evs.any ArrEv.isEctWarn

/-- The backoff delay (in seconds) scheduled after a non-InProgress connect
error with `f` failures already recorded before the attempt. -/
def backoffOf (e : ConnErr) (f : ℕ) : ℕ :=
  if e = .busTimeout ∨ e = .genFailed then
    max (min 30 (2 ^ min (f + 1) 5)) 5
  else
    min 30 (2 ^ min (f + 1) 5)

/-- A list that is either empty or starts with a comma (the shape of
everything that follows the timestamp field in an output line). -/
def commaHeaded (x : List Char) : Prop := x = [] ∨ ∃ x', x = ',' :: x'

/-- Events with the possible-AF warning filtered out. -/
def notAf (e : ArrEv) : Bool := ! e.isAfWarn

def splitOnComma : List Char → List (List Char)
  | [] => [[]]
  | c :: cs =>
    let r := splitOnComma cs
    if c = ',' then [] :: r
    else (c :: r.headI) :: r.tail

/-- A non-empty run of decimal digits. -/
def isDigitRun (f : List Char) : Bool := !f.isEmpty && f.all isDigitCh

/-- Every comma-separated field is a non-empty digit run, except that the
final field may be empty (a trailing comma). -/
def fieldsOK : List (List Char) → Bool
  | [] => true
  | [f] => f.isEmpty || isDigitRun f
  | f :: fs => isDigitRun f && fieldsOK fs

/-- Number of genuine fields: a trailing empty field is not counted. -/
def cnt (fs : List (List Char)) : ℕ :=
  if fs.getLast? = some [] then fs.length - 1 else fs.length

/-- The spec-side acceptance shape of a replay log line. -/
def goodLine (l : List Char) : Bool :=
  fieldsOK (splitOnComma l) && decide (2 ≤ cnt (splitOnComma l))

/-! ## Theorems -/

/-! ### Output line construction and duplicate suppression
(`props_changed_cb`, src/bluetooth.cpp lines 523-546) -/

/-! ### Bradycardia detector (src/feat_health_bradycardia.cpp) -/

/-! ### Quick sanity examples for the decoder (claims C2, C5) -/

example : decodeHRM [] = (none, []) := by decide

example : decodeHRM [1] = (none, []) := by decide

example : decodeHRM [0, 72] = (some 72, []) := by decide

example : decodeHRM [0x10, 0x48, 0x00, 0xC0, 0x03, 0x40, 0x03] =
    (some 72, [48000, 16003]) := by decide

example : decodeHRM [0x11, 0x48, 0x00, 0xC0, 0x03, 0x40, 0x03] =
    (some 72, [938, 813]) := by decide

/-! ### Arrhythmia detector (src/feat_health_arrythmia.cpp) -/

/-! ### Device session supervisor (`ensure_connected_and_notifying`,
src/bluetooth.cpp lines 336-432)

The bus transport is abstracted as an oracle `BtEnv` giving the answers of
the read-only queries performed during one maintenance tick; the actions
recorded are exactly the mutating remote calls (method invokes and match
(un)installation).  Times are in seconds on the monotonic clock; the
bounded in-tick waits (connect poll, discovery window) are abstracted to
the tick's `now`. -/

/-! ### Offline replay parser (`parse_log_line`, src/feat_analyze_log.cpp) -/

/-! Sanity examples for the parser. -/

example : parse_log_line "1630000000000,72,938,813".data = some [1630000000000, 72, 938, 813] := by decide

example : parse_log_line "1,2,".data = some [1, 2] := by decide

example : parse_log_line "1,2,x".data = none := by decide

example : parse_log_line "1,,2".data = none := by decide

example : parse_log_line "5".data = none := by decide

example : parse_log_line "".data = none := by decide

example : parse_log_line " 1,2".data = none := by decide

/-! ## Shared helper lemmas -/

theorem rrLoop_append_ignored : ∀ (bs : List ℕ) (b : ℕ), bs.length % 2 = 0 →
    rrLoop (bs ++ [b]) = rrLoop bs
  | [], _, _ => rfl
  | [_], _, h => by simp at h
  | _ :: _ :: rest, b, h => by
    have ih := rrLoop_append_ignored rest b (by simp at h; omega)
    simp only [List.cons_append, rrLoop, List.append_eq] at *
    rw [ih]

theorem testBit_zero_of_even (flags : ℕ) (hf : flags % 2 = 0) :
    flags.testBit 0 = false := by
  simp [Nat.testBit_zero, Nat.mod_two_ne_one.mpr, hf]

/-! ## Claim theorems -/

/-- Claim C2 counterexample: the spec's second test vector, as written with
flags byte `0x10`, does not decode to `bpm = 72` with RR `[938, 813]` —
flags `0x10` selects an 8-bit bpm, so the RR pairing is shifted by one
byte. -/
theorem c2_frame_vector_counterexample :
    decodeHRM [0x10, 0x48, 0x00, 0xC0, 0x03, 0x40, 0x03] ≠ (some 72, [938, 813]) ∧
    decodeHRM [0x10, 0x48, 0x00, 0xC0, 0x03, 0x40, 0x03] = (some 72, [48000, 16003]) := by
  constructor
  · decide
  · decide

/-- Claim C2 (amended): a frame whose flags byte has bit 0 clear and whose
byte 1 is 72 decodes to `bpm = 72` with no RR intervals, and the frame
`[0x11, 0x48, 0x00, 0xC0, 0x03, 0x40, 0x03]` (flags with bit 0 and bit 4
set) decodes to `bpm = 72` with RR raw `0x03C0 = 960 → 938 ms` and raw
`0x0340 = 832 → 813 ms`. -/
theorem c2_decoder_test_vectors (flags : ℕ) (hf : flags % 2 = 0) :
    decodeHRM [flags, 72] = (some 72, []) ∧
    decodeHRM [0x11, 0x48, 0x00, 0xC0, 0x03, 0x40, 0x03] = (some 72, [938, 813]) := by
  constructor
  · simp [decodeHRM, testBit_zero_of_even flags hf, rrLoop]
  · decide

/-- Claim C2 witness. -/
theorem c2_decoder_test_vectors_witness :
    decodeHRM [0, 72] = (some 72, []) ∧
    decodeHRM [0x11, 0x48, 0x00, 0xC0, 0x03, 0x40, 0x03] = (some 72, [938, 813]) :=
  c2_decoder_test_vectors 0 (by decide)

/-- Claim C3: the bradycardia detector fed bpm `[55, 55, 65]` at timestamps
`[0, 500, 1500]` from the initial state emits exactly one entry warning (at
the first sample) and exactly one recovery (at the third) reporting lowest
bpm 55 and duration 1500 ms; the recovery fires unconditionally on
clearing, with no minimum-duration gate. -/
theorem c3_bradycardia_run (s : BradySt) (bpm ts : ℤ)
    (hact : s.active = true) (hcond : ¬(0 < bpm ∧ bpm < 60)) :
    (healthCheckBradycardia s bpm ts).2 =
      [.recover (if s.start ≤ ts then ts - s.start else 0) s.lowest] ∧
    healthCheckBradycardia bradyInit 55 0 = (⟨true, 0, 55⟩, [.warn 55]) ∧
    healthCheckBradycardia ⟨true, 0, 55⟩ 55 500 = (⟨true, 0, 55⟩, []) ∧
    healthCheckBradycardia ⟨true, 0, 55⟩ 65 1500 = (⟨false, 0, 55⟩, [.recover 1500 55]) := by
  refine ⟨?_, by decide, by decide, by decide⟩
  simp [healthCheckBradycardia, hact, hcond]

/-- Claim C3 witness. -/
theorem c3_bradycardia_run_witness :
    (healthCheckBradycardia ⟨true, 0, 55⟩ 65 1500).2 = [.recover 1500 55] ∧
    healthCheckBradycardia bradyInit 55 0 = (⟨true, 0, 55⟩, [.warn 55]) ∧
    healthCheckBradycardia ⟨true, 0, 55⟩ 55 500 = (⟨true, 0, 55⟩, []) ∧
    healthCheckBradycardia ⟨true, 0, 55⟩ 65 1500 = (⟨false, 0, 55⟩, [.recover 1500 55]) :=
  c3_bradycardia_run ⟨true, 0, 55⟩ 65 1500 rfl (by decide)

/-- Claim C5: the decoder is total and silently tolerant of short input —
empty input and a lone flags byte with the 16-bit-HR bit give
`(none, [])`, a trailing unpaired RR byte is ignored while every
previously extracted field is retained, and with flags `0x10` the decoder
yields the bpm byte plus the RR fields of the remaining byte pairs. -/
theorem c5_decoder_short_inputs (bs : List ℕ) (b : ℕ) (h : bs.length % 2 = 0) :
    decodeHRM [] = (none, []) ∧
    decodeHRM [1] = (none, []) ∧
    rrLoop (bs ++ [b]) = rrLoop bs ∧
    (∀ b0 b1 rest, rrLoop (b0 :: b1 :: rest) = rrConv (b0 + b1 * 256) :: rrLoop rest) ∧
    (∀ bpm rest, decodeHRM (0x10 :: bpm :: rest) = (some bpm, rrLoop rest)) := by
  refine ⟨by decide, by decide, rrLoop_append_ignored bs b h, fun b0 b1 rest => rfl, ?_⟩
  intro bpm rest
  simp [decodeHRM, show Nat.testBit 16 0 = false from rfl,
    show Nat.testBit 16 3 = false from rfl, show Nat.testBit 16 4 = true from rfl]

/-- Claim C5 witness. -/
theorem c5_decoder_short_inputs_witness :
    decodeHRM [] = (none, []) ∧
    decodeHRM [1] = (none, []) ∧
    rrLoop ([0xC0, 0x03] ++ [0x40]) = rrLoop [0xC0, 0x03] ∧
    (∀ b0 b1 rest, rrLoop (b0 :: b1 :: rest) = rrConv (b0 + b1 * 256) :: rrLoop rest) ∧
    (∀ bpm rest, decodeHRM (0x10 :: bpm :: rest) = (some bpm, rrLoop rest)) :=
  c5_decoder_short_inputs [0xC0, 0x03] 0x40 (by decide)

/-! ## RR history buffer invariant (claim C7) -/

theorem pushCap_tail512 (acc : List ℤ) (x : ℤ) :
    pushCap (tail512 acc) x = tail512 (acc ++ [x]) := by
  simp only [pushCap, tail512]
  split
  · next hc =>
    have hn : 512 ≤ acc.length := by
      simp only [List.length_append, List.length_drop, List.length_cons,
        List.length_nil] at hc
      omega
    rw [← List.drop_append_of_le_length (show acc.length - 512 ≤ acc.length by omega),
      List.drop_drop]
    have he : acc.length - 512 + 1 = (acc ++ [x]).length - 512 := by
      simp only [List.length_append, List.length_cons, List.length_nil]
      omega
    rw [he]
  · next hc =>
    have hn : acc.length ≤ 511 := by
      simp only [List.length_append, List.length_drop, List.length_cons,
        List.length_nil] at hc
      omega
    have h0 : acc.length - 512 = 0 := by omega
    have h1 : (acc ++ [x]).length - 512 = 0 := by
      simp only [List.length_append, List.length_cons, List.length_nil]
      omega
    rw [h0, h1, List.drop_zero, List.drop_zero]

theorem foldl_pushCap_tail512 : ∀ (vals acc : List ℤ),
    vals.foldl pushCap (tail512 acc) = tail512 (acc ++ vals)
  | [], acc => by simp
  | v :: vs, acc => by
    simp only [List.foldl_cons, pushCap_tail512]
    rw [foldl_pushCap_tail512 vs (acc ++ [v])]
    simp

theorem pauseAbnormal_rrRaw (ts : ℤ) (s : ArrSt) (rr : ℤ) :
    (pauseAbnormal ts s rr).1.rrRaw = s.rrRaw := by
  simp only [pauseAbnormal, apply_ite ArrSt.rrRaw]
  split <;> rfl

theorem pauseResolve_rrRaw (ts : ℤ) (s : ArrSt) :
    (pauseResolve ts s).1.rrRaw = s.rrRaw := by
  rw [pauseResolve]
  split <;> rfl

theorem ectopicStep_rrRaw (ts : ℤ) (s2 : ArrSt) (evs1 : List ArrEv) :
    (ectopicStep ts s2 evs1).1.rrRaw = s2.rrRaw := by
  rw [ectopicStep]
  split
  · simp only []
    split
    · simp only [apply_ite ArrSt.rrRaw]
      split <;> rfl
    · split
      · rfl
      · rfl
  · rfl

theorem processOneRR_rrRaw (ts : ℤ) (s : ArrSt) (rr : ℤ) :
    (processOneRR ts s rr).1.rrRaw =
      if rrInRange rr then pushCap s.rrRaw rr else s.rrRaw := by
  by_cases h : rrInRange rr
  · rw [processOneRR, if_neg (by simp [h]), if_pos h]
    rw [ectopicStep_rrRaw]
    simp [pauseResolve_rrRaw]
  · rw [processOneRR, if_pos (by simp [h]), if_neg (by simp [h])]
    exact pauseAbnormal_rrRaw ts s rr

theorem arrFold_rrRaw (ts : ℤ) : ∀ (rrs : List ℤ) (s : ArrSt) (evs : List ArrEv),
    ((rrs.foldl (fun (p : ArrSt × List ArrEv) rr =>
        let q := processOneRR ts p.1 rr
        (q.1, p.2 ++ q.2)) (s, evs)).1).rrRaw =
      (rrs.filter (fun rr => rrInRange rr)).foldl pushCap s.rrRaw
  | [], s, evs => rfl
  | rr :: rest, s, evs => by
    simp only [List.foldl_cons, List.filter_cons]
    by_cases h : rrInRange rr
    · simp only [h, if_pos, List.foldl_cons]
      rw [arrFold_rrRaw ts rest]
      rw [processOneRR_rrRaw, if_pos h]
    · simp only [h, Bool.false_eq_true, if_false]
      rw [arrFold_rrRaw ts rest]
      rw [processOneRR_rrRaw, if_neg (by simp [h])]

theorem afClear_rrRaw (s : ArrSt) (ts : ℤ) : (afClear s ts).1.rrRaw = s.rrRaw := by
  simp [afClear]

theorem afScreen_rrRaw (ts : ℤ) (s1 : ArrSt) (evs : List ArrEv) :
    (afScreen ts s1 evs).1.rrRaw = s1.rrRaw := by
  simp only [afScreen]
  split
  · simp [afClear]
  · split
    · simp [afClear]
    · split
      · rfl
      · split <;> rfl

theorem healthCheckArrhythmia_rrRaw (s : ArrSt) (rrs : List ℤ) (ts : ℤ) :
    (healthCheckArrhythmia s rrs ts).1.rrRaw =
      (rrs.filter (fun rr => rrInRange rr)).foldl pushCap s.rrRaw := by
  unfold healthCheckArrhythmia
  rw [afScreen_rrRaw, arrFold_rrRaw ts rrs s []]

theorem runArrCalls_rrRaw (calls : List (List ℤ × ℤ)) :
    (runArrCalls calls).rrRaw =
      tail512 (((calls.map Prod.fst).flatten).filter (fun rr => rrInRange rr)) := by
  suffices h : ∀ (cs : List (List ℤ × ℤ)) (s : ArrSt) (acc : List ℤ),
      s.rrRaw = tail512 (acc.filter (fun rr => rrInRange rr)) →
      (cs.foldl (fun s c => (healthCheckArrhythmia s c.1 c.2).1) s).rrRaw =
        tail512 ((acc ++ (cs.map Prod.fst).flatten).filter (fun rr => rrInRange rr)) by
    have := h calls arrInit [] (by simp [arrInit, tail512])
    simpa using this
  intro cs
  induction cs with
  | nil => intro s acc hs; simpa using hs
  | cons c rest ih =>
    intro s acc hs
    simp only [List.foldl_cons]
    have step : ((healthCheckArrhythmia s c.1 c.2).1).rrRaw =
        tail512 ((acc ++ c.1).filter (fun rr => rrInRange rr)) := by
      rw [healthCheckArrhythmia_rrRaw, hs, foldl_pushCap_tail512, ← List.filter_append]
    have := ih _ _ step
    rw [this]
    simp [List.append_assoc]

/-- Claim C7: after any sequence of analyzer calls the RR history buffer
holds exactly the most recent (at most 512) in-range values in arrival
order — it never exceeds 512 entries, every stored value lies in
[250, 2500], out-of-range values are never inserted, and eviction always
removes the oldest entry. -/
theorem c7_rr_buffer_invariant (calls : List (List ℤ × ℤ)) :
    (runArrCalls calls).rrRaw =
      tail512 (((calls.map Prod.fst).flatten).filter (fun rr => rrInRange rr)) ∧
    (runArrCalls calls).rrRaw.length ≤ 512 ∧
    (runArrCalls calls).rrRaw.all (fun v => rrInRange v) = true := by
  refine ⟨runArrCalls_rrRaw calls, ?_, ?_⟩
  · rw [runArrCalls_rrRaw]
    simp only [tail512, List.length_drop]
    omega
  · rw [runArrCalls_rrRaw]
    simp only [tail512, List.all_eq_true]
    intro v hv
    have hv2 := List.drop_subset _ _ hv
    exact (List.mem_filter.mp hv2).2

/-! ## Ectopic pattern detection (claim C6) -/

theorem pauseResolve_no_ectWarn (ts : ℤ) (s : ArrSt) :
    hasEctWarn (pauseResolve ts s).2 = false := by
  rw [pauseResolve]
  split
  · simp only []
    split <;> split <;> rfl
  · rfl

theorem drop4_getD (l : List ℤ) (a b c d : ℤ)
    (hdrop : l.drop (l.length - 4) = [a, b, c, d]) :
    4 ≤ l.length ∧
    l.getD (l.length - 4) 0 = a ∧ l.getD (l.length - 3) 0 = b ∧
    l.getD (l.length - 2) 0 = c ∧ l.getD (l.length - 1) 0 = d := by
  have h4 : 4 ≤ l.length := by
    have hlen := congrArg List.length hdrop
    simp only [List.length_drop, List.length_cons, List.length_nil] at hlen
    omega
  refine ⟨h4, ?_, ?_, ?_, ?_⟩
  · rw [List.getD_eq_getElem?_getD,
      show l.length - 4 = l.length - 4 + 0 by omega,
      ← List.getElem?_drop, hdrop]
    rfl
  · rw [List.getD_eq_getElem?_getD,
      show l.length - 3 = l.length - 4 + 1 by omega,
      ← List.getElem?_drop, hdrop]
    rfl
  · rw [List.getD_eq_getElem?_getD,
      show l.length - 2 = l.length - 4 + 2 by omega,
      ← List.getElem?_drop, hdrop]
    rfl
  · rw [List.getD_eq_getElem?_getD,
      show l.length - 1 = l.length - 4 + 3 by omega,
      ← List.getElem?_drop, hdrop]
    rfl

theorem ectopicStep_events (ts : ℤ) (s2 : ArrSt) (evs1 : List ArrEv)
    (a b c d : ℤ)
    (hdrop : s2.rrRaw.drop (s2.rrRaw.length - 4) = [a, b, c, d]) :
    hasEctWarn (ectopicStep ts s2 evs1).2 = (hasEctWarn evs1 || ectopicCond a b c d) ∧
    (ectopicCond a b c d = true →
      (ectopicStep ts s2 evs1).2 = evs1 ++ [.ectopicWarn a b c d]) := by
  obtain ⟨h4, hga, hgb, hgc, hgd⟩ := drop4_getD s2.rrRaw a b c d hdrop
  rw [ectopicStep, if_pos h4]
  simp only []
  rw [hga, hgb, hgc, hgd]
  by_cases hc : ectopicCond a b c d
  · rw [if_pos hc]
    refine ⟨?_, fun _ => rfl⟩
    simp [hasEctWarn, ArrEv.isEctWarn, hc]
  · rw [if_neg hc]
    refine ⟨?_, fun h => absurd h hc⟩
    simp only [Bool.not_eq_true] at hc
    rw [hc, Bool.or_false]
    split
    · simp only [hasEctWarn, List.any_append]
      split <;> simp [ArrEv.isEctWarn]
    · rfl

theorem ectopicCond_ex : ectopicCond 800 620 1100 750 = true := by
  rw [ectopicCond, decide_eq_true_eq]
  norm_num

theorem arr_run3_ex :
    healthCheckArrhythmia arrInit [800, 620, 1100] 0 =
      (⟨[800, 620, 1100], false, 0, false, 0, 0, 0, false, 0, 0⟩, []) := by
  norm_num [healthCheckArrhythmia, afScreen, afClear, processOneRR, pauseResolve,
    pauseAbnormal, ectopicStep, pushCap, rrInRange, arrInit]

theorem arr_run4_ex :
    healthCheckArrhythmia arrInit [800, 620, 1100, 750] 0 =
      (⟨[800, 620, 1100, 750], false, 0, false, 0, 0, 0, true, 0, 1⟩,
       [.ectopicWarn 800 620 1100 750]) := by
  norm_num [healthCheckArrhythmia, afScreen, afClear, processOneRR, pauseResolve,
    pauseAbnormal, ectopicStep, pushCap, rrInRange, arrInit, ectopicCond_ex,
    List.getD]

/-- Claim C6: after appending a normal RR value with at least 4 values now
in the history, the detector flags an ectopic-like pattern on the most
recent four values `a, b, c, d` exactly when `b/a ≤ 0.8 ∧ c/b ≥ 1.3 ∧
d/c ≤ 0.9`, emitting a warning on each detection; feeding
`[800, 620, 1100, 750]` to a fresh analyzer triggers the warning exactly
on the 4th sample. -/
theorem c6_ectopic_pattern (s : ArrSt) (ts rr a b c d : ℤ)
    (h1 : rrInRange rr = true)
    (hdrop : (pushCap s.rrRaw rr).drop ((pushCap s.rrRaw rr).length - 4) =
      [a, b, c, d]) :
    hasEctWarn (processOneRR ts s rr).2 = ectopicCond a b c d ∧
    (ectopicCond a b c d = true →
      (processOneRR ts s rr).2.getLast? = some (.ectopicWarn a b c d)) ∧
    ectopicCond 800 620 1100 750 = true ∧
    healthCheckArrhythmia arrInit [800, 620, 1100] 0 =
      (⟨[800, 620, 1100], false, 0, false, 0, 0, 0, false, 0, 0⟩, []) ∧
    healthCheckArrhythmia arrInit [800, 620, 1100, 750] 0 =
      (⟨[800, 620, 1100, 750], false, 0, false, 0, 0, 0, true, 0, 1⟩,
       [.ectopicWarn 800 620 1100 750]) := by
  have hpr : (pauseResolve ts s).1.rrRaw = s.rrRaw := pauseResolve_rrRaw ts s
  have hP : processOneRR ts s rr =
      ectopicStep ts
        { (pauseResolve ts s).1 with rrRaw := pushCap (pauseResolve ts s).1.rrRaw rr }
        (pauseResolve ts s).2 := by
    rw [processOneRR, if_neg (by simp [h1])]
  have hdrop2 :
      ({ (pauseResolve ts s).1 with
          rrRaw := pushCap (pauseResolve ts s).1.rrRaw rr } : ArrSt).rrRaw.drop
        (({ (pauseResolve ts s).1 with
            rrRaw := pushCap (pauseResolve ts s).1.rrRaw rr } : ArrSt).rrRaw.length - 4) =
        [a, b, c, d] := by
    simpa [hpr] using hdrop
  obtain ⟨e1, e2⟩ := ectopicStep_events ts _ (pauseResolve ts s).2 a b c d hdrop2
  refine ⟨?_, ?_, ectopicCond_ex, arr_run3_ex, arr_run4_ex⟩
  · rw [hP, e1, pauseResolve_no_ectWarn, Bool.false_or]
  · intro hc
    rw [hP, e2 hc, List.getLast?_concat]

/-- Claim C6 witness. -/
theorem c6_ectopic_pattern_witness :
    hasEctWarn (processOneRR 0 ⟨[800, 620, 1100], false, 0, false, 0, 0, 0, false, 0, 0⟩ 750).2 =
      ectopicCond 800 620 1100 750 ∧
    (ectopicCond 800 620 1100 750 = true →
      (processOneRR 0 ⟨[800, 620, 1100], false, 0, false, 0, 0, 0, false, 0, 0⟩ 750).2.getLast? =
        some (.ectopicWarn 800 620 1100 750)) ∧
    ectopicCond 800 620 1100 750 = true ∧
    healthCheckArrhythmia arrInit [800, 620, 1100] 0 =
      (⟨[800, 620, 1100], false, 0, false, 0, 0, 0, false, 0, 0⟩, []) ∧
    healthCheckArrhythmia arrInit [800, 620, 1100, 750] 0 =
      (⟨[800, 620, 1100, 750], false, 0, false, 0, 0, 0, true, 0, 1⟩,
       [.ectopicWarn 800 620 1100 750]) :=
  c6_ectopic_pattern ⟨[800, 620, 1100], false, 0, false, 0, 0, 0, false, 0, 0⟩
    0 750 800 620 1100 750 (by decide) (by decide)

/-! ## Supervisor claims (C4, C8) -/

theorem charStage_failures (s : Session) (env : BtEnv) :
    (charStage s env).s.failures = s.failures ∧
    (charStage s env).s.nextConnect = s.nextConnect := by
  rw [charStage]
  split
  · split
    · exact ⟨rfl, rfl⟩
    · split <;> exact ⟨rfl, rfl⟩
  · exact ⟨rfl, rfl⟩

theorem acquireStage_healthy (s : Session) (env : BtEnv) (now : ℤ)
    (h1 : s.devPath ≠ "") (h2 : env.devHasIface = true) :
    acquireStage s env now = ⟨s, [], true⟩ := by
  rw [acquireStage, if_neg]
  simp [h1, h2]

/-- No `Connect` is ever issued by a maintenance tick that runs before the
scheduled retry time (every path to `Connect` passes the
`now < next_connect_attempt` throttle). -/
theorem maintain_throttled_no_connect (s : Session) (env : BtEnv) (t : ℤ)
    (ht : t < s.nextConnect) (hc : env.connected = false) :
    BtAct.connect ∉ (maintain s env t).2 := by
  have hcs : ∀ s' : Session, s'.nextConnect = s.nextConnect →
      connectStage s' env t = ⟨s', [], false⟩ := by
    intro s' hs'
    rw [connectStage, if_neg (by simp [hc]), if_pos (by rw [hs']; exact ht)]
  rw [maintain]
  rcases ha : acquireStage s env t with ⟨s1, a1, c1⟩
  have hanc : s1.nextConnect = s.nextConnect ∧ BtAct.connect ∉ a1 := by
    rw [acquireStage] at ha
    split at ha
    · split at ha
      · cases ha
        exact ⟨rfl, by simp⟩
      · split at ha <;> (cases ha; exact ⟨rfl, by simp⟩)
    · cases ha
      exact ⟨rfl, by simp⟩
  dsimp only
  cases c1
  · simpa using hanc.2
  · rw [if_neg (by simp), hcs s1 hanc.1]
    dsimp only
    simpa using hanc.2

/-- Claim C4: the connect retry/backoff policy of the maintenance step.
With the device present and disconnected and the throttle expired, an
"operation already in progress" failure schedules the retry exactly 3 s
later without touching the failure counter (and no Connect is issued by
any tick before that time elapses); any other Connect error increments the
counter and defers by `2^min(failures,5)` s capped at 30 s with a 5 s
floor for bus-timeout/generic failures; a successful connection resets the
counter and clears the retry delay. -/
theorem c4_connect_backoff (s : Session) (env : BtEnv) (now : ℤ)
    (h1 : s.devPath ≠ "") (h2 : env.devHasIface = true)
    (h3 : env.connected = false) (h4 : s.nextConnect ≤ now) :
    (env.connectRes = some .inProgress →
      maintain s env now =
        ({ s with
            nextConnect := now + 3 }, [.connect]) ∧
      (maintain s env now).1.failures = s.failures ∧
      (∀ env' t, t < now + 3 → env'.connected = false →
        BtAct.connect ∉
          (maintain { s with
              nextConnect := now + 3 } env' t).2)) ∧
    (∀ e, env.connectRes = some e → e ≠ .inProgress →
      maintain s env now =
        ({ s with
            failures := s.failures + 1,
            nextConnect := now + (backoffOf e s.failures : ℤ) }, [.connect])) ∧
    (env.connectRes = none → env.connectedAfterWait = true →
      (maintain s env now).1.failures = 0 ∧
      (maintain s env now).1.nextConnect = now) := by
  have hacq : acquireStage s env now = ⟨s, [], true⟩ :=
    acquireStage_healthy s env now h1 h2
  refine ⟨?_, ?_, ?_⟩
  · intro hres
    have hconn : connectStage s env now =
        ⟨{ s with
            nextConnect := now + 3 }, [.connect], false⟩ := by
      rw [connectStage, if_neg (by simp [h3]), if_neg (by omega), hres]
      dsimp only
      rw [if_pos rfl]
    have hm : maintain s env now =
        ({ s with
            nextConnect := now + 3 }, [.connect]) := by
      rw [maintain, hacq]
      dsimp only
      rw [if_neg (by simp), hconn]
      rfl
    refine ⟨hm, by rw [hm], ?_⟩
    intro env' t ht hc
    exact maintain_throttled_no_connect _ env' t (by simpa using ht) hc
  · intro e hres hne
    have hconn : connectStage s env now =
        ⟨{ s with
            failures := s.failures + 1,
            nextConnect := now + (backoffOf e s.failures : ℤ) }, [.connect], false⟩ := by
      rw [connectStage, if_neg (by simp [h3]), if_neg (by omega), hres]
      dsimp only
      rw [if_neg hne, backoffOf]
    rw [maintain, hacq]
    dsimp only
    rw [if_neg (by simp), hconn]
    rfl
  · intro hres hwait
    have hconn : connectStage s env now =
        ⟨{ s with
            failures := 0,
            nextConnect := now }, [.connect], true⟩ := by
      rw [connectStage, if_neg (by simp [h3]), if_neg (by omega), hres]
      dsimp only
      rw [if_pos hwait]
    rw [maintain, hacq]
    dsimp only
    rw [if_neg (by simp), hconn]
    dsimp only
    rw [if_neg (by simp)]
    have hch := charStage_failures { s with
      failures := 0,
      nextConnect := now } env
    rcases hcc : (charStage { s with
        failures := 0,
        nextConnect := now } env).cont with _ | _
    · simp only [hcc]
      rw [if_pos trivial]
      exact ⟨hch.1, hch.2⟩
    · rw [if_neg (show ¬(true = false) by simp)]
      exact ⟨hch.1, hch.2⟩

/-- Claim C4 witness. -/
theorem c4_connect_backoff_witness :
    ((⟨"d", "c", true, 0, 0, 0⟩ : Session).devPath ≠ "") ∧
    ((⟨true, none, false, some .inProgress, false, true, none, some true⟩ : BtEnv).connectRes =
        some .inProgress →
      maintain (⟨"d", "c", true, 0, 0, 0⟩ : Session)
          (⟨true, none, false, some .inProgress, false, true, none, some true⟩ : BtEnv) 0 =
        ({ (⟨"d", "c", true, 0, 0, 0⟩ : Session) with
            nextConnect := 0 + 3 }, [.connect])) := by
  have h := c4_connect_backoff ⟨"d", "c", true, 0, 0, 0⟩
    ⟨true, none, false, some .inProgress, false, true, none, some true⟩ 0
    (by decide) rfl rfl (by decide)
  exact ⟨by decide, fun hr => (h.1 hr).1⟩

/-- Claim C8: a maintenance tick on a fully healthy session (device path
resolvable, connected, characteristic path current, notifying already
true) performs no mutating remote call — no Connect, discovery,
StartNotify, or match (un)installation — and leaves the whole session
state unchanged. -/
theorem c8_maintain_idempotent (s : Session) (env : BtEnv) (now : ℤ)
    (h1 : s.devPath ≠ "") (h2 : env.devHasIface = true)
    (h3 : env.connected = true) (h4 : s.chPath ≠ "")
    (h5 : env.chHasIface = true) (h6 : env.notifying = some true) :
    maintain s env now = (s, []) := by
  have hacq : acquireStage s env now = ⟨s, [], true⟩ :=
    acquireStage_healthy s env now h1 h2
  have hconn : connectStage s env now = ⟨s, [], true⟩ := by
    rw [connectStage, if_pos h3]
  have hchar : charStage s env = ⟨s, [], true⟩ := by
    rw [charStage, if_neg]
    simp [h4, h5]
  have hnot : notifyStage s env = [] := by
    rw [notifyStage, if_pos h4, h6]
  rw [maintain, hacq]
  dsimp only
  rw [if_neg (by simp), hconn]
  dsimp only
  rw [if_neg (by simp), hchar]
  dsimp only
  rw [if_neg (by simp), hnot]
  rfl

/-- Claim C8 witness. -/
theorem c8_maintain_idempotent_witness :
    maintain (⟨"d", "c", true, 5, 7, 2⟩ : Session)
        (⟨true, none, true, none, true, true, some "c", some true⟩ : BtEnv) 11 =
      ((⟨"d", "c", true, 5, 7, 2⟩ : Session), []) :=
  c8_maintain_idempotent ⟨"d", "c", true, 5, 7, 2⟩
    ⟨true, none, true, none, true, true, some "c", some true⟩ 11
    (by decide) rfl rfl (by decide) rfl rfl

/-! ## Output line deduplication (claim C9) -/

theorem digitCh_ne_comma (d : ℕ) (hd : d < 10) : digitCh d ≠ ',' := by
  interval_cases d <;> decide

theorem digitCh_inj (d1 d2 : ℕ) (h1 : d1 < 10) (h2 : d2 < 10)
    (h : digitCh d1 = digitCh d2) : d1 = d2 := by
  interval_cases d1 <;> interval_cases d2 <;> revert h <;> decide

theorem natDec_no_comma (n : ℕ) : ∀ c ∈ natDec n, c ≠ ',' := by
  cases n with
  | zero =>
    intro c hc
    simp only [natDec, List.mem_singleton] at hc
    rw [hc]
    decide
  | succ m =>
    intro c hc
    simp only [natDec, List.mem_reverse, List.mem_map] at hc
    obtain ⟨d, hd, rfl⟩ := hc
    exact digitCh_ne_comma d (Nat.digits_lt_base (by norm_num) hd)

theorem natDec_ne_nil (n : ℕ) : natDec n ≠ [] := by
  cases n with
  | zero => simp [natDec]
  | succ m =>
    simp [natDec, Nat.digits_ne_nil_iff_ne_zero]

theorem map_digitCh_inj : ∀ (l1 l2 : List ℕ),
    (∀ x ∈ l1, x < 10) → (∀ x ∈ l2, x < 10) →
    l1.map digitCh = l2.map digitCh → l1 = l2
  | [], [], _, _, _ => rfl
  | [], _ :: _, _, _, h => by simp at h
  | _ :: _, [], _, _, h => by simp at h
  | a :: l1, b :: l2, h1, h2, h => by
    simp only [List.map_cons, List.cons.injEq] at h
    have hab := digitCh_inj a b (h1 a (by simp)) (h2 b (by simp)) h.1
    have hl := map_digitCh_inj l1 l2 (fun x hx => h1 x (by simp [hx]))
      (fun x hx => h2 x (by simp [hx])) h.2
    rw [hab, hl]

theorem natDec_inj (m n : ℕ) (h : natDec m = natDec n) : m = n := by
  cases m with
  | zero =>
    cases n with
    | zero => rfl
    | succ k =>
      exfalso
      simp only [natDec] at h
      have hlen := congrArg List.length h
      simp only [List.length_singleton, List.length_reverse, List.length_map] at hlen
      rcases he : Nat.digits 10 (k + 1) with _ | ⟨d, ds⟩
      · exact absurd he (Nat.digits_ne_nil_iff_ne_zero.mpr (Nat.succ_ne_zero k))
      · rw [he] at hlen
        simp only [List.length_cons] at hlen
        have hds : ds = [] := List.length_eq_zero.mp (by omega)
        rw [hds] at he
        rw [he] at h
        simp only [List.map_cons, List.map_nil, List.reverse_cons, List.reverse_nil,
          List.nil_append, List.cons.injEq] at h
        have hd10 : d < 10 := Nat.digits_lt_base (by norm_num) (by rw [he]; simp)
        have : (0 : ℕ) = d := digitCh_inj 0 d (by norm_num) hd10 h.1
        have hofd := Nat.ofDigits_digits 10 (k + 1)
        rw [he, ← this] at hofd
        simp [Nat.ofDigits] at hofd
  | succ j =>
    cases n with
    | zero =>
      exfalso
      simp only [natDec] at h
      have hlen := congrArg List.length h
      simp only [List.length_singleton, List.length_reverse, List.length_map] at hlen
      rcases he : Nat.digits 10 (j + 1) with _ | ⟨d, ds⟩
      · exact absurd he (Nat.digits_ne_nil_iff_ne_zero.mpr (Nat.succ_ne_zero j))
      · rw [he] at hlen
        simp only [List.length_cons] at hlen
        have hds : ds = [] := List.length_eq_zero.mp (by omega)
        rw [hds] at he
        rw [he] at h
        simp only [List.map_cons, List.map_nil, List.reverse_cons, List.reverse_nil,
          List.nil_append, List.cons.injEq] at h
        have hd10 : d < 10 := Nat.digits_lt_base (by norm_num) (by rw [he]; simp)
        have : d = 0 := digitCh_inj d 0 hd10 (by norm_num) h.1
        have hofd := Nat.ofDigits_digits 10 (j + 1)
        rw [he, this] at hofd
        simp [Nat.ofDigits] at hofd
    | succ k =>
      simp only [natDec] at h
      have h2 := List.reverse_injective h
      have hdig := map_digitCh_inj (Nat.digits 10 (j + 1)) (Nat.digits 10 (k + 1))
        (fun x hx => Nat.digits_lt_base (by norm_num) hx)
        (fun x hx => Nat.digits_lt_base (by norm_num) hx) h2
      have := congrArg (Nat.ofDigits 10) hdig
      rwa [Nat.ofDigits_digits, Nat.ofDigits_digits] at this

theorem comma_prefix_eq : ∀ (a b x y : List Char),
    (∀ c ∈ a, c ≠ ',') → (∀ c ∈ b, c ≠ ',') →
    commaHeaded x → commaHeaded y → a ++ x = b ++ y → a = b
  | [], [], _, _, _, _, _, _, _ => rfl
  | [], b0 :: bs, x, y, _, hb, hx, _, h => by
    exfalso
    rcases hx with rfl | ⟨x', rfl⟩
    · simp at h
    · simp only [List.nil_append, List.cons_append] at h
      have hb0 : b0 = ',' := by
        have := congrArg (fun l => l.headI) h
        simpa using this.symm
      exact (hb b0 (by simp)) hb0
  | a0 :: as, [], x, y, ha, _, _, hy, h => by
    exfalso
    rcases hy with rfl | ⟨y', rfl⟩
    · simp only [List.nil_append] at h
      exact (ha a0 (by simp)) (by simp at h)
    · simp only [List.nil_append, List.cons_append] at h
      have ha0 : a0 = ',' := by
        have := congrArg (fun l => l.headI) h
        simpa using this
      exact (ha a0 (by simp)) ha0
  | a0 :: as, b0 :: bs, x, y, ha, hb, hx, hy, h => by
    simp only [List.cons_append, List.cons.injEq] at h
    rw [h.1, comma_prefix_eq as bs x y (fun c hc => ha c (by simp [hc]))
      (fun c hc => hb c (by simp [hc])) hx hy h.2]

/-- The part of an output line after the timestamp is empty or
comma-headed. -/
theorem buildLine_rest_headed (bpm : Option ℕ) (rr : List ℕ) :
    commaHeaded
      ((match bpm with
        | some b => ',' :: natDec b
        | none => []) ++ rr.flatMap (fun v => ',' :: natDec v)) := by
  cases bpm with
  | some b => exact Or.inr ⟨_, rfl⟩
  | none =>
    cases rr with
    | nil => exact Or.inl rfl
    | cons v vs =>
      right
      refine ⟨natDec v ++ vs.flatMap (fun v => ',' :: natDec v), ?_⟩
      simp

theorem buildLine_ts_inj (t1 t2 : ℕ) (b1 b2 : Option ℕ) (r1 r2 : List ℕ)
    (hne : t1 ≠ t2) : buildLine t1 b1 r1 ≠ buildLine t2 b2 r2 := by
  intro h
  simp only [buildLine] at h
  rw [List.append_assoc, List.append_assoc] at h
  exact hne (natDec_inj t1 t2
    (comma_prefix_eq (natDec t1) (natDec t2) _ _
      (natDec_no_comma t1) (natDec_no_comma t2)
      (buildLine_rest_headed b1 r1) (buildLine_rest_headed b2 r2) h))

/-- Claim C9: the pipeline emits `timestamp[,bpm][,rr...]` per non-duplicate
sample and suppresses (counting) exactly when the full line text equals the
previously emitted line; because the millisecond timestamp is part of the
text, two notifications at different timestamps are never duplicates — a
notification following an emitted one with a different timestamp is always
emitted. -/
theorem c9_line_dedup (st : DedupSt) (line : List Char)
    (t1 t2 : ℕ) (b1 : Option ℕ) (r1 : List ℕ) (bytes1 bytes2 : List ℕ)
    (hne : t1 ≠ t2) :
    ((emitLine st line).2 = false ↔ st.last ≠ [] ∧ line = st.last) ∧
    ((emitLine st line).2 = false →
      (emitLine st line).1 = { st with suppressed := st.suppressed + 1 }) ∧
    ((emitLine st line).2 = true →
      (emitLine st line).1 = { last := line, suppressed := st.suppressed }) ∧
    buildLine t1 b1 r1 ≠ [] ∧
    (∀ b2 r2, buildLine t1 b1 r1 ≠ buildLine t2 b2 r2) ∧
    ((notifyStep st t1 bytes1).2 = true →
      (notifyStep (notifyStep st t1 bytes1).1 t2 bytes2).2 = true) := by
  have hemit : ∀ (st' : DedupSt) (l : List Char),
      emitLine st' l =
        if st'.last ≠ [] ∧ l = st'.last then
          ({ st' with suppressed := st'.suppressed + 1 }, false)
        else ({ last := l, suppressed := st'.suppressed }, true) := fun _ _ => rfl
  refine ⟨?_, ?_, ?_, ?_, ?_, ?_⟩
  · rw [hemit]
    split
    · next hcond => simpa using hcond
    · next hcond => simpa using hcond
  · rw [hemit]
    split
    · intro; rfl
    · intro hf
      exact absurd hf (by simp)
  · rw [hemit]
    split
    · intro ht
      exact absurd ht (by simp)
    · intro; rfl
  · simp only [buildLine]
    rw [List.append_assoc]
    intro h
    exact natDec_ne_nil t1 (List.append_eq_nil.mp h).1
  · intro b2 r2
    exact buildLine_ts_inj t1 t2 b1 b2 r1 r2 hne
  · simp only [notifyStep]
    intro hfirst
    rw [hemit st] at hfirst
    by_cases hcond : st.last ≠ [] ∧
        buildLine t1 (decodeHRM bytes1).1 (decodeHRM bytes1).2 = st.last
    · rw [if_pos hcond] at hfirst
      simp at hfirst
    · rw [hemit st, if_neg hcond]
      simp only []
      rw [hemit]
      split
      · next hcond2 =>
        exact absurd hcond2.2 (buildLine_ts_inj t2 t1 _ _ _ _ (Ne.symm hne))
      · rfl

/-- Claim C9 witness. -/
theorem c9_line_dedup_witness :
    ((emitLine dedupInit ['1']).2 = false ↔ dedupInit.last ≠ [] ∧ ['1'] = dedupInit.last) ∧
    ((emitLine dedupInit ['1']).2 = false →
      (emitLine dedupInit ['1']).1 = { dedupInit with suppressed := dedupInit.suppressed + 1 }) ∧
    ((emitLine dedupInit ['1']).2 = true →
      (emitLine dedupInit ['1']).1 = { last := ['1'], suppressed := dedupInit.suppressed }) ∧
    buildLine 1 (some 72) [938, 813] ≠ [] ∧
    (∀ b2 r2, buildLine 1 (some 72) [938, 813] ≠ buildLine 2 b2 r2) ∧
    ((notifyStep dedupInit 1 [0, 72]).2 = true →
      (notifyStep (notifyStep dedupInit 1 [0, 72]).1 2 [0, 72]).2 = true) :=
  c9_line_dedup dedupInit ['1'] 1 2 (some 72) [938, 813] [0, 72] [0, 72] (by decide)

/-! ## Possible-AF screening is dead code (claim C1)

The entropy accumulator `se = Σ -p·ln p` is non-negative, and the source
divides it by `ln(1/16) < 0`, so the "normalized Shannon entropy" the code
computes is never positive and the classification threshold
`entropy > 0.7` can never be met. -/

theorem binCounts_le (trimmed : List ℚ) (lo hi : ℚ) :
    ∀ c ∈ binCounts trimmed lo hi, c ≤ trimmed.length := by
  intro c hc
  rw [binCounts] at hc
  simp only [List.mem_map, List.mem_range] at hc
  obtain ⟨k, _, rfl⟩ := hc
  exact List.countP_le_length _

theorem foldl_entropy_nonneg (total : ℕ) (htotal : 0 < total) :
    ∀ (counts : List ℕ) (init : ℝ), (∀ c ∈ counts, c ≤ total) → 0 ≤ init →
    0 ≤ counts.foldl (fun (acc : ℝ) (c : ℕ) =>
      if c = 0 then acc
      else acc - ((c : ℝ) / total) * Real.log ((c : ℝ) / total)) init
  | [], _, _, h0 => by simpa using h0
  | c :: cs, init, hc, h0 => by
    rw [List.foldl_cons]
    apply foldl_entropy_nonneg total htotal cs _ (fun x hx => hc x (by simp [hx]))
    by_cases hz : c = 0
    · simpa [hz] using h0
    · rw [if_neg hz]
      have hp0 : (0 : ℝ) < (c : ℝ) / total := by
        apply div_pos
        · exact_mod_cast Nat.pos_of_ne_zero hz
        · exact_mod_cast htotal
      have hp1 : (c : ℝ) / total ≤ 1 := by
        rw [div_le_one (by exact_mod_cast htotal)]
        exact_mod_cast hc c (by simp)
      have hlog : Real.log ((c : ℝ) / total) ≤ 0 := Real.log_nonpos hp0.le hp1
      have hmul : (c : ℝ) / total * Real.log ((c : ℝ) / total) ≤ 0 :=
        mul_nonpos_of_nonneg_of_nonpos hp0.le hlog
      linarith

theorem entropyAcc_nonneg (total : ℕ) (counts : List ℕ) (htotal : 0 < total)
    (hc : ∀ c ∈ counts, c ≤ total) : 0 ≤ entropyAcc total counts :=
  foldl_entropy_nonneg total htotal counts 0 hc le_rfl

theorem shannonEntropy16_nonpos (rr : List ℚ) (v : ℝ)
    (hv : shannonEntropy16 rr = some v) : v ≤ 0 := by
  rw [shannonEntropy16] at hv
  split at hv
  · exact absurd hv (by simp)
  · dsimp only at hv
    split at hv
    · cases hv
      exact le_rfl
    · split at hv
      · exact absurd hv (by simp)
      · next htz =>
        cases hv
        apply div_nonpos_of_nonneg_of_nonpos
        · exact entropyAcc_nonneg _ _ (Nat.pos_of_ne_zero htz) (binCounts_le _ _ _)
        · exact (Real.log_neg (by norm_num) (by norm_num)).le

theorem afPossible_false (seg : List ℚ) : afPossible seg = false := by
  have hn : ¬ afPossibleP seg := by
    rintro ⟨-, -, e, he, hgt⟩
    have := shannonEntropy16_nonpos seg e he
    linarith
  rw [afPossible]
  exact @decide_eq_false (afPossibleP seg) (Classical.propDecidable _) hn

theorem pauseResolve_notAf (ts : ℤ) (s : ArrSt) :
    ((pauseResolve ts s).2).all notAf = true := by
  rw [pauseResolve]
  split
  · simp only []
    split <;> split <;> rfl
  · rfl

theorem ectopicStep_notAf (ts : ℤ) (s2 : ArrSt) (evs1 : List ArrEv)
    (h : evs1.all notAf = true) :
    ((ectopicStep ts s2 evs1).2).all notAf = true := by
  rw [ectopicStep]
  split
  · simp only []
    split
    · simp [List.all_append, h, notAf, ArrEv.isAfWarn]
    · split
      · simp only [List.all_append, h, Bool.true_and]
        split <;> simp [notAf, ArrEv.isAfWarn]
      · exact h
  · exact h

theorem processOneRR_notAf (ts : ℤ) (s : ArrSt) (rr : ℤ) :
    ((processOneRR ts s rr).2).all notAf = true := by
  rw [processOneRR]
  split
  · simp [pauseAbnormal, notAf, ArrEv.isAfWarn]
  · exact ectopicStep_notAf ts _ _ (pauseResolve_notAf ts s)

theorem arrFold_notAf (ts : ℤ) : ∀ (rrs : List ℤ) (s : ArrSt) (evs : List ArrEv),
    evs.all notAf = true →
    ((rrs.foldl (fun (p : ArrSt × List ArrEv) rr =>
        let q := processOneRR ts p.1 rr
        (q.1, p.2 ++ q.2)) (s, evs)).2).all notAf = true
  | [], s, evs, h => h
  | rr :: rest, s, evs, h => by
    rw [List.foldl_cons]
    apply arrFold_notAf ts rest
    simp [List.all_append, h, processOneRR_notAf ts s rr]

theorem afClear_notAf (s : ArrSt) (ts : ℤ) : ((afClear s ts).2).all notAf = true := by
  rw [afClear]
  simp only []
  split
  · split <;> (try split) <;> rfl
  · rfl

theorem afScreen_notAf (ts : ℤ) (s1 : ArrSt) (evs : List ArrEv)
    (h : evs.all notAf = true) :
    ((afScreen ts s1 evs).2).all notAf = true := by
  rw [afScreen]
  simp only []
  split
  · simp [List.all_append, h, afClear_notAf]
  · split
    · simp [List.all_append, h, afClear_notAf]
    · simp only [afPossible_false]
      split
      · next hcond => simp at hcond
      · split
        · simp only [List.all_append, h, Bool.true_and]
          split <;> (try split) <;> rfl
        · exact h

theorem afScreen_possibleAf_false (ts : ℤ) (s1 : ArrSt) (evs : List ArrEv) :
    (afScreen ts s1 evs).1.possibleAf = false := by
  rw [afScreen]
  simp only []
  split
  · simp [afClear]
  · split
    · simp [afClear]
    · simp only [afPossible_false]
      split
      · next hcond => simp at hcond
      · split
        · rfl
        · rfl

/-- Claim C1 (the code can never classify possible AF): the normalized
entropy the source computes is never positive (the accumulated
`-Σ p·ln p ≥ 0` is divided by `ln(1/16) < 0`), hence the classification
`rmssd_ratio > 0.1 ∧ 0.54 < tpr < 0.77 ∧ entropy > 0.7` is unsatisfiable,
the analyzer's possible-AF flag stays false after every call, and no
possible-AF warning is ever emitted — contradicting the spec's testable
property that a suitable 128-sample segment transitions the analyzer into
possible-AF. -/
theorem c1_af_screening_unreachable :
    (∀ seg : List ℚ, (shannonEntropy16 seg).elim True (fun v => v ≤ 0)) ∧
    (∀ seg : List ℚ, afPossible seg = false) ∧
    (∀ (s : ArrSt) (rrs : List ℤ) (ts : ℤ),
      (healthCheckArrhythmia s rrs ts).1.possibleAf = false) ∧
    (∀ (s : ArrSt) (rrs : List ℤ) (ts : ℤ),
      ((healthCheckArrhythmia s rrs ts).2).all notAf = true) := by
  refine ⟨?_, afPossible_false, ?_, ?_⟩
  · intro seg
    rcases he : shannonEntropy16 seg with _ | v
    · trivial
    · exact shannonEntropy16_nonpos seg v he
  · intro s rrs ts
    rw [healthCheckArrhythmia]
    exact afScreen_possibleAf_false ts _ _
  · intro s rrs ts
    rw [healthCheckArrhythmia]
    exact afScreen_notAf ts _ _ (arrFold_notAf ts rrs s [] rfl)

/-! ## Offline replay parser acceptance shape (claim C10)

`splitOnComma`, `fieldsOK`, `cnt` and `goodLine` describe the spec's wording
for accepted lines ("non-empty decimal-digit runs separated by single
commas, at least two fields"), extended by the trailing-comma tolerance the
source actually exhibits. -/

theorem isDigitCh_ne_comma (c : Char) (h : isDigitCh c = true) : c ≠ ',' := by
  intro hc
  rw [hc] at h
  exact absurd h (by decide)

theorem cnt_cons (x : List Char) (fs : List (List Char)) (hx : x ≠ []) :
    cnt (x :: fs) = 1 + cnt fs := by
  cases fs with
  | nil => simp [cnt, hx]
  | cons y ys =>
    rw [cnt, cnt, List.getLast?_cons_cons]
    split
    · simp only [List.length_cons]
      omega
    · simp only [List.length_cons]
      omega

theorem fieldsOK_cons_digit (f : List Char) (fs : List (List Char))
    (hf : f ≠ []) (hd : f.all isDigitCh = true) (hfs : fieldsOK fs = true) :
    fieldsOK (f :: fs) = true := by
  cases fs with
  | nil => simp [fieldsOK, isDigitRun, hf, hd]
  | cons g gs => simp [fieldsOK, isDigitRun, hf, hd, hfs]

theorem parseScan_sound : ∀ (l : List Char) (mode : Option ℕ) (acc fs : List ℕ),
    parseScan l mode acc = some fs →
    (mode = none → fieldsOK (splitOnComma l) = true ∧
      fs.length = acc.length + cnt (splitOnComma l)) ∧
    (∀ v, mode = some v → (splitOnComma l).headI.all isDigitCh = true ∧
      fieldsOK (splitOnComma l).tail = true ∧
      fs.length = acc.length + 1 + cnt (splitOnComma l).tail)
  | [], none, acc, fs, h => by
    rw [parseScan] at h
    cases h
    refine ⟨fun _ => ⟨by decide, ?_⟩, fun v hv => by simp at hv⟩
    simp [splitOnComma, cnt]
  | [], some v, acc, fs, h => by
    rw [parseScan] at h
    cases h
    refine ⟨fun hv => by simp at hv, fun w hw => ⟨by decide, by decide, ?_⟩⟩
    simp [splitOnComma, cnt]
  | c :: cs, none, acc, fs, h => by
    rw [parseScan] at h
    by_cases hd : isDigitCh c = true
    · rw [if_pos hd] at h
      have ih := (parseScan_sound cs (some (digitVal c)) acc fs h).2 (digitVal c) rfl
      obtain ⟨hhead, htail, hlen⟩ := ih
      have hcomma : ¬ c = ',' := isDigitCh_ne_comma c hd
      have hsp : splitOnComma (c :: cs) =
          (c :: (splitOnComma cs).headI) :: (splitOnComma cs).tail := by
        rw [splitOnComma]
        simp [hcomma]
      refine ⟨fun _ => ?_, fun v hv => by simp at hv⟩
      rw [hsp]
      constructor
      · exact fieldsOK_cons_digit _ _ (by simp) (by simp [hhead, hd]) htail
      · rw [cnt_cons _ _ (by simp), hlen]
        omega
    · rw [if_neg hd] at h
      exact absurd h (by simp)
  | c :: cs, some v, acc, fs, h => by
    rw [parseScan] at h
    by_cases hd : isDigitCh c = true
    · rw [if_pos hd] at h
      have ih := (parseScan_sound cs (some (v * 10 + digitVal c)) acc fs h).2 _ rfl
      obtain ⟨hhead, htail, hlen⟩ := ih
      have hcomma : ¬ c = ',' := isDigitCh_ne_comma c hd
      have hsp : splitOnComma (c :: cs) =
          (c :: (splitOnComma cs).headI) :: (splitOnComma cs).tail := by
        rw [splitOnComma]
        simp [hcomma]
      refine ⟨fun hv => by simp at hv, fun w hw => ?_⟩
      rw [hsp]
      exact ⟨by simp [hhead, hd], htail, hlen⟩
    · rw [if_neg hd] at h
      by_cases hc : c = ','
      · rw [if_pos hc] at h
        have ih := (parseScan_sound cs none (acc ++ [v]) fs h).1 rfl
        obtain ⟨hok, hlen⟩ := ih
        have hsp : splitOnComma (c :: cs) = [] :: splitOnComma cs := by
          rw [splitOnComma]
          simp [hc]
        refine ⟨fun hv => by simp at hv, fun w hw => ?_⟩
        rw [hsp]
        simp only [List.tail_cons]
        refine ⟨rfl, hok, ?_⟩
        rw [hlen]
        simp only [List.length_append, List.length_singleton]
      · rw [if_neg hc] at h
        exact absurd h (by simp)

theorem parse_log_line_shape (l : List Char) (vs : List ℕ)
    (h : parse_log_line l = some vs) : goodLine l = true ∧ 2 ≤ vs.length := by
  rw [parse_log_line] at h
  split at h
  · exact absurd h (by simp)
  · split at h
    · next fs hfs =>
      split at h
      · next hlen =>
        cases h
        have := (parseScan_sound l none [] vs hfs).1 rfl
        constructor
        · rw [goodLine, this.1, Bool.true_and, decide_eq_true_eq]
          have h2 := this.2
          simp only [List.length_nil, Nat.zero_add] at h2
          omega
        · exact hlen
      · exact absurd h (by simp)
    · exact absurd h (by simp)

/-- Claim C10 counterexample: the line `"1,2,"` contains an empty final
field (its comma-split is `["1", "2", ""]`), yet the parser accepts it with
fields `[1, 2]` instead of skipping it. -/
theorem c10_trailing_comma_counterexample :
    parse_log_line "1,2,".data = some [1, 2] ∧
    splitOnComma "1,2,".data = [['1'], ['2'], []] :=
  ⟨by decide, by decide⟩

/-- Claim C10 (amended): the replay parser accepts a line only if it
consists of non-empty decimal-digit runs separated by single commas with at
least two fields, except that a single trailing comma (an empty final
field) is tolerated and ignored; any other malformation — a sign, space,
letter or hex digit, or an empty field elsewhere — skips the line in its
entirety, never truncating it to a valid prefix. -/
theorem c10_parser_acceptance (l : List Char) (vs : List ℕ)
    (h : parse_log_line l = some vs) :
    goodLine l = true ∧ 2 ≤ vs.length ∧
    parse_log_line "1,2,x".data = none ∧
    parse_log_line "1,,2".data = none ∧
    parse_log_line " 1,2".data = none ∧
    parse_log_line "+1,2".data = none ∧
    parse_log_line "1a,2".data = none ∧
    parse_log_line "1,2,0x3".data = none ∧
    parse_log_line "12,34".data = some [12, 34] := by
  obtain ⟨h1, h2⟩ := parse_log_line_shape l vs h
  exact ⟨h1, h2, by decide, by decide, by decide, by decide, by decide, by decide,
    by decide⟩

/-- Claim C10 witness. -/
theorem c10_parser_acceptance_witness :
    goodLine "12,34".data = true ∧ 2 ≤ ([12, 34] : List ℕ).length ∧
    parse_log_line "1,2,x".data = none ∧
    parse_log_line "1,,2".data = none ∧
    parse_log_line " 1,2".data = none ∧
    parse_log_line "+1,2".data = none ∧
    parse_log_line "1a,2".data = none ∧
    parse_log_line "1,2,0x3".data = none ∧
    parse_log_line "12,34".data = some [12, 34] :=
  c10_parser_acceptance "12,34".data [12, 34] (by decide)
